import Mathlib

/-
  Verification development for scripts/copyright_check.py.

  The Python script is shallowly embedded below.  File contents and strings
  are modelled as lists of characters; machine state (file reads and writes)
  is passed explicitly; the re module's fixed COPYRIGHT_PATTERN is embedded
  as a hand-written matcher that is faithful to that one regular expression.
  Modelling notes are attached to each definition.
-/

set_option maxHeartbeats 1000000

namespace CopyrightCheck

/-- The five status values returned by check_and_fix_file. -/
inductive Status
  | ok
  | added
  | updated
  | skipped
  | error
deriving DecidableEq

/-- Characters matched by the regex class backslash-s for str patterns,
given by code point: ASCII whitespace (space, tab, LF, VT, FF, CR), the
information separators 28-31, NEL 133, NBSP 160, and the Unicode space and
line separators (5760, 8192-8202, 8232, 8233, 8239, 8287, 12288), matching
what CPython's re module accepts for text patterns. -/
def wsChar (c : Char) : Bool :=
  [32, 9, 10, 11, 12, 13, 28, 29, 30, 31, 133, 160, 5760,
   8192, 8193, 8194, 8195, 8196, 8197, 8198, 8199, 8200, 8201, 8202,
   8232, 8233, 8239, 8287, 12288].contains c.toNat

/-- Characters matched by the regex class backslash-d, modelled as the ASCII
decimal digits (the years this script manipulates are ASCII). -/
def isDigitCh (c : Char) : Bool :=
  decide (48 ≤ c.toNat) && decide (c.toNat ≤ 57)

/-- The ASCII digit character for a digit value below ten. -/
def digitChar (d : Nat) : Char := Char.ofNat (48 + d)

/-- Helper for natStr: structural recursion on a fuel argument so that the
definition evaluates inside the kernel; fuel n plus one always suffices
because the value shrinks by a factor of ten at each step. -/
def natStrAux : Nat → Nat → List Char
  | 0, _ => []
  | fuel + 1, n =>
    if n < 10 then [digitChar n]
    else natStrAux fuel (n / 10) ++ [digitChar (n % 10)]

/-- Decimal representation of a natural number, as produced by str(int) in
Python for nonnegative values. -/
def natStr (n : Nat) : List Char := natStrAux (n + 1) n

theorem natStrAux_fuel : ∀ (f1 f2 n : Nat), n < f1 → n < f2 →
    natStrAux f1 n = natStrAux f2 n := by
  intro f1
  induction f1 with
  | zero => intro f2 n h1 _; omega
  | succ f ih =>
    intro f2 n h1 h2
    cases f2 with
    | zero => omega
    | succ f2' =>
      simp only [natStrAux]
      by_cases h : n < 10
      · simp [h]
      · rw [if_neg h, if_neg h, ih f2' (n / 10) (by omega) (by omega)]

/-- Decimal representation of an integer, as produced by str(int) in Python. -/
def intStr (i : Int) : List Char :=
  if i < 0 then '-' :: natStr (-i).toNat else natStr i.toNat

/-- Numeric value of a list of ASCII digit characters, as computed by
int(...) on the captured regex group. -/
def parseVal (l : List Char) : Nat :=
  l.foldl (fun a c => 10 * a + (c.toNat - 48)) 0

theorem digitChar_toNat (d : Nat) (h : d < 10) : (digitChar d).toNat = 48 + d := by
  interval_cases d <;> decide

theorem natStr_lt10 {n : Nat} (h : n < 10) : natStr n = [digitChar n] := by
  simp [natStr, natStrAux, h]

theorem natStr_ge10 {n : Nat} (h : 10 ≤ n) :
    natStr n = natStr (n / 10) ++ [digitChar (n % 10)] := by
  have h1 : natStr n = natStrAux n (n / 10) ++ [digitChar (n % 10)] := by
    show natStrAux (n + 1) n = _
    simp only [natStrAux, if_neg (Nat.not_lt.2 h)]
  rw [h1, natStrAux_fuel n (n / 10 + 1) (n / 10) (by omega) (by omega)]
  rfl

theorem mem_natStr (n : Nat) : ∀ c ∈ natStr n, ∃ d, d < 10 ∧ c = digitChar d := by
  induction n using Nat.strong_induction_on with
  | _ n ih =>
    by_cases h : n < 10
    · rw [natStr_lt10 h]
      intro c hc
      simp only [List.mem_singleton] at hc
      exact ⟨n, h, hc⟩
    · rw [natStr_ge10 (by omega)]
      intro c hc
      rcases List.mem_append.1 hc with hc | hc
      · exact ih (n / 10) (Nat.div_lt_self (by omega) (by omega)) c hc
      · simp only [List.mem_singleton] at hc
        exact ⟨n % 10, Nat.mod_lt _ (by omega), hc⟩

theorem natStr_ne_nil (n : Nat) : natStr n ≠ [] := by
  by_cases h : n < 10
  · rw [natStr_lt10 h]; simp
  · rw [natStr_ge10 (by omega)]; simp

theorem isDigitCh_of_mem_natStr {n : Nat} {c : Char} (h : c ∈ natStr n) :
    isDigitCh c = true := by
  obtain ⟨d, hd, rfl⟩ := mem_natStr n c h
  simp [isDigitCh, digitChar_toNat d hd]
  omega

theorem not_ws_of_digit {c : Char} (h : isDigitCh c = true) : wsChar c = false := by
  simp only [isDigitCh, Bool.and_eq_true, decide_eq_true_eq] at h
  cases hw : wsChar c
  · rfl
  · exfalso
    simp [wsChar] at hw
    omega

theorem ne_of_digit {c : Char} (h : isDigitCh c = true) (x : Char)
    (hx : isDigitCh x = false) : c ≠ x := by
  intro hc; subst hc; rw [h] at hx; cases hx

theorem parseVal_append_one (l : List Char) (c : Char) :
    parseVal (l ++ [c]) = 10 * parseVal l + (c.toNat - 48) := by
  simp [parseVal, List.foldl_append]

theorem parseVal_natStr (n : Nat) : parseVal (natStr n) = n := by
  induction n using Nat.strong_induction_on with
  | _ n ih =>
    by_cases h : n < 10
    · rw [natStr_lt10 h]
      simp [parseVal, digitChar_toNat n h]
    · rw [natStr_ge10 (by omega), parseVal_append_one,
        ih (n / 10) (Nat.div_lt_self (by omega) (by omega)),
        digitChar_toNat (n % 10) (Nat.mod_lt _ (by omega))]
      omega

theorem natStr_length_lt10 {n : Nat} (h : n < 10) : (natStr n).length = 1 := by
  rw [natStr_lt10 h]; rfl

theorem natStr_length2 {n : Nat} (h1 : 10 ≤ n) (h2 : n ≤ 99) :
    (natStr n).length = 2 := by
  rw [natStr_ge10 h1]
  rw [List.length_append, natStr_length_lt10 (by omega)]
  rfl

theorem natStr_length3 {n : Nat} (h1 : 100 ≤ n) (h2 : n ≤ 999) :
    (natStr n).length = 3 := by
  rw [natStr_ge10 (by omega)]
  rw [List.length_append, natStr_length2 (by omega) (by omega)]
  rfl

theorem natStr_length4 {n : Nat} (h1 : 1000 ≤ n) (h2 : n ≤ 9999) :
    (natStr n).length = 4 := by
  rw [natStr_ge10 (by omega)]
  rw [List.length_append, natStr_length3 (by omega) (by omega)]
  rfl

theorem intStr_ofNat (n : Nat) : intStr (n : Int) = natStr n := by
  simp [intStr]

/-- content.split with a newline separator, as in Python for a nonempty
string: no collapsing of adjacent separators, a trailing separator yields a
trailing empty line. -/
def splitNl : List Char → List (List Char)
  | [] => [[]]
  | c :: rest =>
    if c = '\n' then [] :: splitNl rest
    else
      match splitNl rest with
      | [] => [[c]]
      | l :: ls => (c :: l) :: ls

/-- separator.join of a list of lines, as in Python. -/
def joinSep (sep : Char) : List (List Char) → List Char
  | [] => []
  | [l] => l
  | l :: ls => l ++ sep :: joinSep sep ls

/-- Joining lines with a newline separator. -/
def joinNl (ls : List (List Char)) : List Char := joinSep '\n' ls

theorem splitNl_ne_nil (l : List Char) : splitNl l ≠ [] := by
  match l with
  | [] => simp [splitNl]
  | c :: rest =>
    simp only [splitNl]
    split
    · simp
    · split <;> simp

theorem splitNl_no_nl {l : List Char} (h : '\n' ∉ l) : splitNl l = [l] := by
  induction l with
  | nil => rfl
  | cons c rest ih =>
    have hc : c ≠ '\n' := fun hc => h (hc ▸ List.mem_cons_self c rest)
    have hr : '\n' ∉ rest := fun hr => h (List.mem_cons_of_mem c hr)
    simp only [splitNl, if_neg hc, ih hr]

theorem splitNl_append_nl {a : List Char} (r : List Char) (h : '\n' ∉ a) :
    splitNl (a ++ '\n' :: r) = a :: splitNl r := by
  induction a with
  | nil => simp [splitNl]
  | cons c t ih =>
    have hc : c ≠ '\n' := fun hc => h (hc ▸ List.mem_cons_self c t)
    have ht : '\n' ∉ t := fun hr => h (List.mem_cons_of_mem c hr)
    simp only [List.cons_append, splitNl, if_neg hc, List.append_eq, ih ht]

theorem mem_splitNl_no_nl (l : List Char) : ∀ s ∈ splitNl l, '\n' ∉ s := by
  induction l with
  | nil =>
    intro s hs
    simp only [splitNl, List.mem_singleton] at hs
    subst hs; simp
  | cons c rest ih =>
    intro s hs
    simp only [splitNl] at hs
    by_cases hc : c = '\n'
    · rw [if_pos hc] at hs
      rcases List.mem_cons.1 hs with h | h
      · subst h; simp
      · exact ih s h
    · rw [if_neg hc] at hs
      rcases hsp : splitNl rest with _ | ⟨l0, ls⟩
      · exact absurd hsp (splitNl_ne_nil rest)
      · rw [hsp] at hs
        rcases List.mem_cons.1 hs with h | h
        · subst h
          intro hmem
          rcases List.mem_cons.1 hmem with h | h
          · exact hc h.symm
          · exact ih l0 (hsp ▸ List.mem_cons_self l0 ls) h
        · exact ih s (hsp ▸ List.mem_cons_of_mem l0 h)

theorem splitNl_joinNl (ls : List (List Char)) (hne : ls ≠ [])
    (h : ∀ l ∈ ls, '\n' ∉ l) : splitNl (joinNl ls) = ls := by
  induction ls with
  | nil => exact absurd rfl hne
  | cons l t ih =>
    match t with
    | [] =>
      simp only [joinNl, joinSep]
      exact splitNl_no_nl (h l (List.mem_cons_self l []))
    | l' :: t' =>
      have hj : joinNl (l :: l' :: t') = l ++ '\n' :: joinNl (l' :: t') := rfl
      rw [hj, splitNl_append_nl _ (h l (List.mem_cons_self l _)),
        ih (List.cons_ne_nil l' t') (fun x hx => h x (List.mem_cons_of_mem l hx))]

/-- The literal word Copyright from COPYRIGHT_PATTERN. -/
def litCopyright : List Char := ['C', 'o', 'p', 'y', 'r', 'i', 'g', 'h', 't']

/-- The literal dash between the two year groups. -/
def litDash : List Char := ['-']

/-- The literal word Hewlett from COPYRIGHT_PATTERN. -/
def litHewlett : List Char := ['H', 'e', 'w', 'l', 'e', 't', 't']

/-- The literal word Packard from COPYRIGHT_PATTERN. -/
def litPackard : List Char := ['P', 'a', 'c', 'k', 'a', 'r', 'd']

/-- The literal word Enterprise from COPYRIGHT_PATTERN. -/
def litEnterprise : List Char := ['E', 'n', 't', 'e', 'r', 'p', 'r', 'i', 's', 'e']

/-- The literal word Development from COPYRIGHT_PATTERN. -/
def litDevelopment : List Char := ['D', 'e', 'v', 'e', 'l', 'o', 'p', 'm', 'e', 'n', 't']

/-- The literal letters LP from COPYRIGHT_PATTERN. -/
def litLP : List Char := ['L', 'P']

/-- Consume an exact literal token, returning the remainder of the input. -/
def dropLit : List Char → List Char → Option (List Char)
  | [], l => some l
  | _ :: _, [] => none
  | a :: xs, b :: ys => if a = b then dropLit xs ys else none

/-- Consume the regex piece backslash-s-plus (one or more whitespace).  In
COPYRIGHT_PATTERN every such piece is followed by a digit or a letter, so
greedy matching with backtracking coincides with consuming the maximal
whitespace run, which is what this definition does. -/
def dropWs1 : List Char → Option (List Char)
  | [] => none
  | c :: r => if wsChar c then some (r.dropWhile wsChar) else none

/-- Consume one captured group backslash-d-exactly-four: four digit
characters, returned as their numeric value. -/
def take4 : List Char → Option (Nat × List Char)
  | a :: b :: c :: d :: r =>
    if isDigitCh a && isDigitCh b && isDigitCh c && isDigitCh d then
      some (parseVal [a, b, c, d], r)
    else none
  | _ => none

/-- COPYRIGHT_PATTERN matched at one fixed start position: the literal
words of the pattern with whitespace runs between them and the two four
digit year groups, exactly as in the regular expression.  Nothing after LP
is constrained (the pattern is unanchored on the right). -/
def matchAt (l : List Char) : Option (Nat × Nat) :=
  (dropLit litCopyright l).bind fun l1 =>
  (dropWs1 l1).bind fun l2 =>
  (take4 l2).bind fun p1 =>
  (dropLit litDash p1.2).bind fun l3 =>
  (take4 l3).bind fun p2 =>
  (dropWs1 p2.2).bind fun l4 =>
  (dropLit litHewlett l4).bind fun l5 =>
  (dropWs1 l5).bind fun l6 =>
  (dropLit litPackard l6).bind fun l7 =>
  (dropWs1 l7).bind fun l8 =>
  (dropLit litEnterprise l8).bind fun l9 =>
  (dropWs1 l9).bind fun l10 =>
  (dropLit litDevelopment l10).bind fun l11 =>
  (dropWs1 l11).bind fun l12 =>
  (dropLit litLP l12).map fun _ =>
  (p1.1, p2.1)

/-- COPYRIGHT_PATTERN.search: try every start position from the left and
return the first match's two captured year groups, already converted to
numbers as int does on the captures. -/
def searchCopyright : List Char → Option (Nat × Nat)
  | [] => none
  | c :: rest =>
    match matchAt (c :: rest) with
    | some g => some g
    | none => searchCopyright rest

theorem dropLit_append (a r : List Char) : dropLit a (a ++ r) = some r := by
  induction a with
  | nil => rfl
  | cons c t ih => simp [dropLit, ih]

theorem exists_four {A : Type} (l : List A) (h : l.length = 4) :
    ∃ a b c d, l = [a, b, c, d] := by
  match l with
  | [a, b, c, d] => exact ⟨a, b, c, d, rfl⟩
  | [] => simp at h
  | [_] => simp at h
  | [_, _] => simp at h
  | [_, _, _] => simp at h
  | _ :: _ :: _ :: _ :: _ :: _ => simp at h

theorem take4_natStr (n : Nat) (h1 : 1000 ≤ n) (h2 : n ≤ 9999) (r : List Char) :
    take4 (natStr n ++ r) = some (n, r) := by
  obtain ⟨a, b, c, d, hl⟩ := exists_four (natStr n) (natStr_length4 h1 h2)
  have hda : isDigitCh a = true := isDigitCh_of_mem_natStr (n := n) (by rw [hl]; simp)
  have hdb : isDigitCh b = true := isDigitCh_of_mem_natStr (n := n) (by rw [hl]; simp)
  have hdc : isDigitCh c = true := isDigitCh_of_mem_natStr (n := n) (by rw [hl]; simp)
  have hdd : isDigitCh d = true := isDigitCh_of_mem_natStr (n := n) (by rw [hl]; simp)
  have hv : parseVal [a, b, c, d] = n := by rw [← hl, parseVal_natStr]
  rw [hl]
  simp [take4, hda, hdb, hdc, hdd, hv]

theorem dropWs1_space_word (w X : List Char) (hne : w ≠ [])
    (hw : wsChar (w.headD 'x') = false) :
    dropWs1 (' ' :: (w ++ X)) = some (w ++ X) := by
  match w with
  | [] => exact absurd rfl hne
  | c :: t =>
    simp only [List.headD] at hw
    simp only [List.cons_append, dropWs1, if_pos (by decide : wsChar ' ' = true)]
    rw [List.dropWhile_cons, if_neg (by simp [hw])]

theorem dropLit_litDash (r : List Char) : dropLit litDash ('-' :: r) = some r := by
  simp [litDash, dropLit]

theorem natStr_headD_not_ws (n : Nat) : wsChar ((natStr n).headD 'x') = false := by
  rcases hl : natStr n with _ | ⟨c, t⟩
  · exact absurd hl (natStr_ne_nil n)
  · simp only [List.headD]
    exact not_ws_of_digit (isDigitCh_of_mem_natStr (n := n) (by rw [hl]; simp))

theorem matchAt_header (s e : Nat) (hs1 : 1000 ≤ s) (hs2 : s ≤ 9999)
    (he1 : 1000 ≤ e) (he2 : e ≤ 9999) (tail : List Char) :
    matchAt (litCopyright ++ ' ' :: (natStr s ++ '-' :: (natStr e ++ ' ' ::
      (litHewlett ++ ' ' :: (litPackard ++ ' ' :: (litEnterprise ++ ' ' ::
        (litDevelopment ++ ' ' :: (litLP ++ tail)))))))) = some (s, e) := by
  unfold matchAt
  rw [dropLit_append]
  rw [Option.some_bind]
  rw [dropWs1_space_word (natStr s) _ (natStr_ne_nil s) (natStr_headD_not_ws s)]
  rw [Option.some_bind]
  rw [take4_natStr s hs1 hs2]
  rw [Option.some_bind]
  rw [dropLit_litDash]
  rw [Option.some_bind]
  rw [take4_natStr e he1 he2]
  rw [Option.some_bind]
  rw [dropWs1_space_word litHewlett _ (by decide) (by decide)]
  rw [Option.some_bind]
  rw [dropLit_append]
  rw [Option.some_bind]
  rw [dropWs1_space_word litPackard _ (by decide) (by decide)]
  rw [Option.some_bind]
  rw [dropLit_append]
  rw [Option.some_bind]
  rw [dropWs1_space_word litEnterprise _ (by decide) (by decide)]
  rw [Option.some_bind]
  rw [dropLit_append]
  rw [Option.some_bind]
  rw [dropWs1_space_word litDevelopment _ (by decide) (by decide)]
  rw [Option.some_bind]
  rw [dropLit_append]
  rw [Option.some_bind]
  rw [dropWs1_space_word litLP _ (by decide) (by decide)]
  rw [Option.some_bind]
  rw [dropLit_append]
  rfl

theorem matchAt_ne_C {c : Char} (t : List Char) (hc : c ≠ 'C') :
    matchAt (c :: t) = none := by
  unfold matchAt
  have hd : dropLit litCopyright (c :: t) = none := by
    simp only [litCopyright, dropLit]
    rw [if_neg (fun h => hc h.symm)]
  rw [hd]
  rfl

theorem searchCopyright_cons_ne_C {c : Char} (t : List Char) (hc : c ≠ 'C') :
    searchCopyright (c :: t) = searchCopyright t := by
  rw [searchCopyright, matchAt_ne_C t hc]

theorem searchCopyright_append_skip (l r : List Char) (h : ∀ c ∈ l, c ≠ 'C') :
    searchCopyright (l ++ r) = searchCopyright r := by
  induction l with
  | nil => rfl
  | cons c t ih =>
    rw [List.cons_append, searchCopyright_cons_ne_C _ (h c (List.mem_cons_self c t)),
      ih (fun x hx => h x (List.mem_cons_of_mem c hx))]

theorem searchCopyright_of_matchAt {l : List Char} {g : Nat × Nat}
    (h : matchAt l = some g) : searchCopyright l = some g := by
  match l with
  | [] =>
    rw [show matchAt [] = none from rfl] at h
    exact absurd h (by simp)
  | c :: t => rw [searchCopyright, h]

/-- The COMMENT_SYNTAX dict literal, as an association list in source
order.  The source dict contains the key .m twice (once with the double
slash comment and once with the percent comment); Python dict literals let
the later binding overwrite the earlier one, which pyDictGet reproduces by
taking the last matching entry. -/
def COMMENT_SYNTAX : List (List Char × List Char) :=
  [(".py".toList, "#".toList),
   (".sh".toList, "#".toList),
   (".bash".toList, "#".toList),
   (".zsh".toList, "#".toList),
   (".rb".toList, "#".toList),
   (".pl".toList, "#".toList),
   (".pm".toList, "#".toList),
   (".r".toList, "#".toList),
   (".R".toList, "#".toList),
   (".jl".toList, "#".toList),
   (".coffee".toList, "#".toList),
   (".js".toList, "//".toList),
   (".ts".toList, "//".toList),
   (".jsx".toList, "//".toList),
   (".tsx".toList, "//".toList),
   (".go".toList, "//".toList),
   (".c".toList, "//".toList),
   (".cpp".toList, "//".toList),
   (".cc".toList, "//".toList),
   (".cxx".toList, "//".toList),
   (".h".toList, "//".toList),
   (".hpp".toList, "//".toList),
   (".hxx".toList, "//".toList),
   (".cs".toList, "//".toList),
   (".java".toList, "//".toList),
   (".kt".toList, "//".toList),
   (".kts".toList, "//".toList),
   (".scala".toList, "//".toList),
   (".swift".toList, "//".toList),
   (".rs".toList, "//".toList),
   (".dart".toList, "//".toList),
   (".groovy".toList, "//".toList),
   (".gradle".toList, "//".toList),
   (".m".toList, "//".toList),
   (".mm".toList, "//".toList),
   (".php".toList, "//".toList),
   (".v".toList, "//".toList),
   (".sv".toList, "//".toList),
   (".sql".toList, "--".toList),
   (".lua".toList, "--".toList),
   (".hs".toList, "--".toList),
   (".elm".toList, "--".toList),
   (".ada".toList, "--".toList),
   (".lisp".toList, ";".toList),
   (".cl".toList, ";".toList),
   (".clj".toList, ";".toList),
   (".cljs".toList, ";".toList),
   (".edn".toList, ";".toList),
   (".scm".toList, ";".toList),
   (".rkt".toList, ";".toList),
   (".el".toList, ";".toList),
   (".asm".toList, ";".toList),
   (".s".toList, ";".toList),
   (".tex".toList, "%".toList),
   (".latex".toList, "%".toList),
   (".m".toList, "%".toList),
   (".erl".toList, "%".toList),
   (".hrl".toList, "%".toList),
   (".html".toList, "<!--".toList),
   (".htm".toList, "<!--".toList),
   (".xml".toList, "<!--".toList),
   (".xhtml".toList, "<!--".toList),
   (".svg".toList, "<!--".toList),
   (".vue".toList, "<!--".toList),
   (".css".toList, "/*".toList),
   (".scss".toList, "//".toList),
   (".sass".toList, "//".toList),
   (".less".toList, "//".toList)]

/-- The BLOCK_COMMENT_END dict literal: closing token (with its leading
space, as in the source) for the two block comment openers. -/
def BLOCK_COMMENT_END : List (List Char × List Char) :=
  [("<!--".toList, " -->".toList),
   ("/*".toList, " */".toList)]

/-- dict.get with Python's insertion-overwrite semantics: the value kept
for a key is the one of its last binding in the literal. -/
def pyDictGet (l : List (List Char × List Char)) (k : List Char) :
    Option (List Char) :=
  l.foldl (fun acc p => if p.1 == k then some p.2 else acc) none

/-- str.lower, modelled for the ASCII extensions this script handles. -/
def lowerStr (l : List Char) : List Char := l.map Char.toLower

/-- The source's comment-syntax lookup (named get_comment_style here to
suit the development's naming): look the lower-cased extension up in
COMMENT_SYNTAX.  The extraction of the extension from the path (Python's
Path.suffix) is modelled separately as suffixOf. -/
def get_comment_style (sfx : List Char) : Option (List Char) :=
  pyDictGet COMMENT_SYNTAX (lowerStr sfx)

/-- COPYRIGHT_TEMPLATE with the two year fields substituted, exactly the
characters of: Copyright start-end Hewlett Packard Enterprise Development
LP (single spaces, a dash between the years). -/
def COPYRIGHT_TEMPLATE (s e : Int) : List Char :=
  litCopyright ++ ' ' :: (intStr s ++ '-' :: (intStr e ++ ' ' ::
    (litHewlett ++ ' ' :: (litPackard ++ ' ' :: (litEnterprise ++ ' ' ::
      (litDevelopment ++ ' ' :: litLP))))))

/-- Sanity check that the structured template spells the source string. -/
theorem COPYRIGHT_TEMPLATE_spelling :
    COPYRIGHT_TEMPLATE 2024 2025 =
      "Copyright 2024-2025 Hewlett Packard Enterprise Development LP".toList := by
  decide

/-- BLOCK_COMMENT_END.get with the empty default, as used when formatting. -/
def blockEndOf (cp : List Char) : List Char :=
  (pyDictGet BLOCK_COMMENT_END cp).getD []

/-- format_copyright_line: comment opener, one space, the filled template,
then the block closing token (empty for line comment styles). -/
def format_copyright_line (cp : List Char) (s e : Int) : List Char :=
  cp ++ ' ' :: (COPYRIGHT_TEMPLATE s e ++ blockEndOf cp)

/-- The pure content transformation at the heart of check_and_fix_file
(source lines 201 to 247): split the content on newlines (an empty content
gives no lines), search the first line for COPYRIGHT_PATTERN, then either
keep the content (ok), rewrite the first line with the original start year
and the current year (updated), or prepend a fresh header line and a
newline (added). -/
def reconcile (content : List Char) (cp : List Char) (current_year : Int) :
    List Char × Status :=
  let lines := if content = [] then [] else splitNl content
  let firstLn := lines.headD []
  match searchCopyright firstLn with
  | some se =>
    if (se.2 : Int) = current_year then (content, Status.ok)
    else
      (joinNl (format_copyright_line cp (se.1 : Int) current_year :: lines.tail),
       Status.updated)
  | none =>
    if content = [] then
      (format_copyright_line cp current_year current_year ++ ['\n'], Status.added)
    else
      (format_copyright_line cp current_year current_year ++ '\n' :: content,
       Status.added)

/-- Outcome of the attempted read of one file: the decoded content, a
UnicodeDecodeError, or a PermissionError.  This is the explicit-state
stand-in for the open plus read call of check_and_fix_file. -/
inductive ReadOutcome
  | ok (content : List Char)
  | decodeError
  | accessDenied
deriving DecidableEq

/-- Outcome an attempted write to the file would have. -/
inductive WriteOutcome
  | ok
  | accessDenied
deriving DecidableEq

/-- An exception escaping check_and_fix_file.  The write calls (source
lines 221 to 223 and 240 to 242) are outside the try block, so a
PermissionError raised by them propagates out of the function. -/
inductive PyExc
  | writeAccessDenied
deriving DecidableEq

/-- Per-file result: the status reported, and the content written back to
the file (none when no write happened). -/
structure FileResult where
  status : Status
  written : Option (List Char)
deriving DecidableEq

/-- check_and_fix_file over explicit read and write outcomes.  The order
of effects follows the source: the extension lookup happens before any
read; read failures of the two caught classes yield the error status with
no write; the ok status returns before the write; the added and updated
paths write unless dry_run, and a denied write escapes as an exception. -/
def check_and_fix_file (sfx : List Char) (rd : ReadOutcome) (wr : WriteOutcome)
    (current_year : Int) (dry_run : Bool) : Except PyExc FileResult :=
  match get_comment_style sfx with
  | none => Except.ok ⟨Status.skipped, none⟩
  | some cp =>
    match rd with
    | ReadOutcome.decodeError => Except.ok ⟨Status.error, none⟩
    | ReadOutcome.accessDenied => Except.ok ⟨Status.error, none⟩
    | ReadOutcome.ok content =>
      let r := reconcile content cp current_year
      match r.2 with
      | Status.ok => Except.ok ⟨Status.ok, none⟩
      | st =>
        if dry_run then Except.ok ⟨st, none⟩
        else
          match wr with
          | WriteOutcome.ok => Except.ok ⟨st, some r.1⟩
          | WriteOutcome.accessDenied => Except.error PyExc.writeAccessDenied

/-- The per-file loop of main: each file is processed in order; an
exception escaping check_and_fix_file aborts the whole loop (main has no
try around the call), while caught errors only mark that file. -/
def processFiles (files : List (List Char × ReadOutcome × WriteOutcome))
    (current_year : Int) (dry_run : Bool) : Except PyExc (List FileResult) :=
  match files with
  | [] => Except.ok []
  | f :: fs =>
    match check_and_fix_file f.1 f.2.1 f.2.2 current_year dry_run with
    | Except.error e => Except.error e
    | Except.ok r =>
      match processFiles fs current_year dry_run with
      | Except.error e => Except.error e
      | Except.ok rs => Except.ok (r :: rs)

/-- One member of a character class in an fnmatch pattern: a single
character or an inclusive code point range. -/
inductive ClassItem
  | single (c : Char)
  | range (lo hi : Char)
deriving DecidableEq

/-- Whether a character satisfies one class member; ranges compare code
points and an inverted range matches nothing, as in the compiled regex. -/
def classItemMatch (c : Char) : ClassItem → Bool
  | ClassItem.single d => c == d
  | ClassItem.range lo hi =>
    decide (lo.toNat ≤ c.toNat) && decide (c.toNat ≤ hi.toNat)

/-- Scan for the closing bracket of a character class, splitting the input
into the class body and the remainder; none when unterminated. -/
def scanClose : List Char → Option (List Char × List Char)
  | [] => none
  | ']' :: t => some ([], t)
  | c :: t => (scanClose t).map (fun p => (c :: p.1, p.2))

/-- Parse a character class after its opening bracket, following
fnmatch.translate: a leading exclamation mark negates, a closing bracket
directly after that is a literal member, and the body runs to the next
closing bracket; none when the class never closes (the opening bracket is
then a literal). -/
def classSplit (l : List Char) : Option (Bool × List Char × List Char) :=
  match l with
  | '!' :: ']' :: u => (scanClose u).map (fun p => (true, ']' :: p.1, p.2))
  | '!' :: t => (scanClose t).map (fun p => (true, p.1, p.2))
  | ']' :: u => (scanClose u).map (fun p => (false, ']' :: p.1, p.2))
  | t => (scanClose t).map (fun p => (false, p.1, p.2))

/-- Turn a class body into its members, following the chunk splitting of
fnmatch.translate: a dash between two characters forms a range, while a
leading or trailing dash is a literal member. -/
def itemsOfStuff : List Char → List ClassItem
  | [] => []
  | [c] => [ClassItem.single c]
  | [c, d] => [ClassItem.single c, ClassItem.single d]
  | c :: '-' :: d :: rest => ClassItem.range c d :: itemsOfStuff rest
  | c :: rest => ClassItem.single c :: itemsOfStuff rest

/-- Helper for globMatch: structural recursion on a fuel argument so that
matching evaluates inside the kernel.  Every step consumes at least one
pattern or string character, so fuel equal to the two lengths plus one
always suffices. -/
def globMatchAux : Nat → List Char → List Char → Bool
  | 0, _, _ => false
  | fuel + 1, p, s =>
    match p, s with
    | [], [] => true
    | [], _ :: _ => false
    | '*' :: pr, s =>
      globMatchAux fuel pr s ||
        (match s with
         | [] => false
         | _ :: sr => globMatchAux fuel ('*' :: pr) sr)
    | '?' :: _, [] => false
    | '?' :: pr, _ :: sr => globMatchAux fuel pr sr
    | '[' :: pr, s =>
      (match classSplit pr with
       | some nsr =>
         (match s with
          | [] => false
          | c :: sr =>
            (if nsr.1 then !((itemsOfStuff nsr.2.1).any (classItemMatch c))
             else (itemsOfStuff nsr.2.1).any (classItemMatch c)) &&
              globMatchAux fuel nsr.2.2 sr)
       | none =>
         (match s with
          | [] => false
          | c :: sr => (c == '[') && globMatchAux fuel pr sr))
    | c :: pr, d :: sr => (c == d) && globMatchAux fuel pr sr
    | _ :: _, [] => false

/-- fnmatch.fnmatch on a POSIX system (normcase is the identity there):
anchored match of the whole string against the pattern; star matches any
run including slashes, question mark one character, bracket classes as in
classSplit, and an unterminated bracket is a literal character. -/
def globMatch (p s : List Char) : Bool :=
  globMatchAux (p.length + s.length + 1) p s

/-- str.rstrip with one strip character: remove all trailing copies. -/
def rstripChar (c : Char) (l : List Char) : List Char :=
  (l.reverse.dropWhile (fun x => x == c)).reverse

/-- str.endswith for the character list model. -/
def endsWithL (l suf : List Char) : Bool := suf.reverse.isPrefixOf l.reverse

/-- The path parts joined with slashes: str of a relative Path. -/
def relStrOf (parts : List (List Char)) : List Char := joinSep '/' parts

/-- The trailing slash-star-star marker of a directory pattern. -/
def litDirStarStar : List Char := ['/', '*', '*']

/-- A single slash. -/
def litSlash : List Char := ['/']

/-- The star-dot opening of an extension pattern. -/
def litStarDot : List Char := ['*', '.']

/-- should_ignore restricted to one pattern, mirroring the elif chain of
the source exactly: directory markers first, then star-dot extension
patterns, then bare names (no slash and no star), then a glob of the full
relative path, and only when that glob fails a bracket pattern matched
against the base name. -/
def patternMatches (parts : List (List Char)) (pat : List Char) : Bool :=
  let relStr := relStrOf parts
  let name := parts.getLastD []
  let patClean := rstripChar '/' pat
  if endsWithL pat litDirStarStar || endsWithL pat litSlash then
    let dirPat := rstripChar '/' (rstripChar '*' patClean)
    parts.any (fun p => p == dirPat) || (dirPat ++ ['/']).isPrefixOf relStr
  else if litStarDot.isPrefixOf patClean then
    globMatch patClean name
  else if !patClean.contains '/' && !patClean.contains '*' then
    parts.any (fun p => p == patClean) || name == patClean
  else if globMatch patClean relStr then true
  else if patClean.contains '[' then globMatch patClean name
  else false

/-- should_ignore: true when any loaded pattern matches the file. -/
def should_ignore (parts : List (List Char)) (patterns : List (List Char)) :
    Bool :=
  patterns.any (patternMatches parts)

/-- Does a path segment begin with a dot (str.startswith on one part)? -/
def startsWithDot (seg : List Char) : Bool :=
  match seg with
  | [] => false
  | c :: _ => c == '.'

/-- Path.suffix of a file name: the last dot-led extension segment, empty
when the name has no dot, when its only dot is the leading character, or
when the dot is the final character. -/
def suffixOf (name : List Char) : List Char :=
  match name.reverse.findIdx? (fun c => c == '.') with
  | none => []
  | some j =>
    let i := name.length - 1 - j
    if 0 < i ∧ i < name.length - 1 then name.drop i else []

/-- Strict lexicographic code point comparison of two character lists:
Python string less-than, as used inside tuple comparison. -/
def charListLt : List Char → List Char → Bool
  | [], [] => false
  | [], _ :: _ => true
  | _ :: _, [] => false
  | a :: xs, b :: ys =>
    if a.toNat < b.toNat then true
    else if a.toNat = b.toNat then charListLt xs ys
    else false

theorem char_toNat_inj {a b : Char} (h : a.toNat = b.toNat) : a = b :=
  Char.ext (UInt32.ext h)

theorem charListLt_trans {xs ys zs : List Char} (h1 : charListLt xs ys = true)
    (h2 : charListLt ys zs = true) : charListLt xs zs = true := by
  induction xs generalizing ys zs with
  | nil =>
    cases ys with
    | nil => exact absurd h1 (by simp [charListLt])
    | cons b u =>
      cases zs with
      | nil => simp [charListLt] at h2
      | cons c v => rfl
  | cons a t ih =>
    cases ys with
    | nil => simp [charListLt] at h1
    | cons b u =>
      cases zs with
      | nil => simp [charListLt] at h2
      | cons c v =>
        simp only [charListLt] at h1 h2 ⊢
        by_cases hab : a.toNat < b.toNat
        · rw [if_pos hab] at h1
          by_cases hbc : b.toNat < c.toNat
          · rw [if_pos (by omega)]
          · by_cases hbc2 : b.toNat = c.toNat
            · rw [if_pos (by omega)]
            · rw [if_neg hbc, if_neg hbc2] at h2; cases h2
        · by_cases hab2 : a.toNat = b.toNat
          · rw [if_neg hab, if_pos hab2] at h1
            by_cases hbc : b.toNat < c.toNat
            · rw [if_pos (by omega)]
            · by_cases hbc2 : b.toNat = c.toNat
              · rw [if_neg hbc, if_pos hbc2] at h2
                rw [if_neg (by omega), if_pos (by omega)]
                exact ih h1 h2
              · rw [if_neg hbc, if_neg hbc2] at h2; cases h2
          · rw [if_neg hab, if_neg hab2] at h1; cases h1

theorem charListLt_trichotomy (xs ys : List Char) :
    charListLt xs ys = true ∨ xs = ys ∨ charListLt ys xs = true := by
  induction xs generalizing ys with
  | nil =>
    cases ys with
    | nil => right; left; rfl
    | cons b u => left; rfl
  | cons a t ih =>
    cases ys with
    | nil => right; right; rfl
    | cons b u =>
      rcases Nat.lt_trichotomy a.toNat b.toNat with h | h | h
      · left; simp only [charListLt]; rw [if_pos h]
      · have hab : a = b := char_toNat_inj h
        rcases ih u with h2 | h2 | h2
        · left; simp only [charListLt]; rw [if_neg (by omega), if_pos h, h2]
        · right; left; rw [hab, h2]
        · right; right; simp only [charListLt]
          rw [if_neg (by omega), if_pos h.symm, h2]
      · right; right; simp only [charListLt]; rw [if_pos h]

/-- Lexicographic comparison of two parts tuples: how Python 3.10 and 3.11
order Path objects (PurePath comparison goes through the case-normalized
parts, the identity on POSIX; tuples compare elementwise with a shorter
prefix ranking first). -/
def partsLe : List (List Char) → List (List Char) → Bool
  | [], _ => true
  | _ :: _, [] => false
  | x :: xs, y :: ys =>
    if charListLt x y then true
    else if x = y then partsLe xs ys
    else false

theorem partsLe_total (a b : List (List Char)) :
    partsLe a b = true ∨ partsLe b a = true := by
  induction a generalizing b with
  | nil => left; rfl
  | cons x xs ih =>
    cases b with
    | nil => right; rfl
    | cons y ys =>
      rcases charListLt_trichotomy x y with h | h | h
      · left; simp only [partsLe]; rw [if_pos h]
      · subst h
        rcases ih ys with h2 | h2
        · left; simp only [partsLe]; simp [h2]
        · right; simp only [partsLe]; simp [h2]
      · right; simp only [partsLe]; rw [if_pos h]

theorem charListLt_irrefl (x : List Char) : charListLt x x = false := by
  induction x with
  | nil => rfl
  | cons a t ih =>
    simp only [charListLt]
    rw [if_neg (by omega)]
    simp [ih]

theorem partsLe_trans {a b c : List (List Char)} (h1 : partsLe a b = true)
    (h2 : partsLe b c = true) : partsLe a c = true := by
  induction a generalizing b c with
  | nil => rfl
  | cons x xs ih =>
    cases b with
    | nil => simp [partsLe] at h1
    | cons y ys =>
      cases c with
      | nil => simp [partsLe] at h2
      | cons z zs =>
        simp only [partsLe] at h1 h2 ⊢
        by_cases hxy : charListLt x y = true
        · rw [if_pos hxy] at h1
          by_cases hyz : charListLt y z = true
          · rw [if_pos (charListLt_trans hxy hyz)]
          · by_cases hyz2 : y = z
            · subst hyz2; rw [if_pos hxy]
            · rw [if_neg hyz, if_neg hyz2] at h2; cases h2
        · by_cases hxy2 : x = y
          · subst hxy2
            rw [if_neg hxy, if_pos rfl] at h1
            by_cases hyz : charListLt x z = true
            · rw [if_pos hyz]
            · by_cases hyz2 : x = z
              · subst hyz2
                rw [if_neg hyz, if_pos rfl] at h2 ⊢
                exact ih h1 h2
              · rw [if_neg hyz, if_neg hyz2] at h2; cases h2
          · rw [if_neg hxy, if_neg hxy2] at h1; cases h1

/-- Order used by sorted on the discovered files: Path comparison. -/
def pathLe (a b : List (List Char)) : Prop := partsLe a b = true

instance : DecidableRel pathLe :=
  fun a b => inferInstanceAs (Decidable (partsLe a b = true))

instance : IsTotal (List (List Char)) pathLe :=
  ⟨fun a b => partsLe_total a b⟩

instance : IsTrans (List (List Char)) pathLe :=
  ⟨fun _ _ _ h1 h2 => partsLe_trans h1 h2⟩

/-- The filter of find_files on one candidate, with the checks in source
order: no part of the full path (root parts and relative parts together,
as in file_path.parts) may begin with a dot, the ignore patterns must not
match the relative path, and the extension must be in the syntax table. -/
def fileOk (root : List (List Char)) (patterns : List (List Char))
    (f : List (List Char)) : Bool :=
  !(root ++ f).any startsWithDot && !should_ignore f patterns &&
    (get_comment_style (suffixOf (f.getLastD []))).isSome

/-- find_files over an abstract directory listing: the regular files below
the root are given by their relative parts, and the result is the kept
candidates in sorted path order. -/
def find_files (root : List (List Char)) (patterns : List (List Char))
    (files : List (List (List Char))) : List (List (List Char)) :=
  List.insertionSort pathLe (files.filter (fileOk root patterns))

/-- The candidate header line of a content: its first line, or the empty
line for an empty content, as computed inside check_and_fix_file. -/
def firstLineOf (content : List Char) : List Char := (splitNl content).headD []

/-- Side condition for idempotence of reconcile: when the first line
matches, the matched start year must be at least 1000, so that formatting
it back produces four digits again; non-matching contents satisfy the
condition vacuously. -/
def startYearSafe (content : List Char) : Bool :=
  match searchCopyright (firstLineOf content) with
  | some se => decide (1000 ≤ se.1)
  | none => true

theorem pyDictGet_mem_aux (l : List (List Char × List Char)) (k : List Char) :
    ∀ (acc : Option (List Char)) (v : List Char),
      l.foldl (fun acc p => if p.1 == k then some p.2 else acc) acc = some v →
      acc = some v ∨ v ∈ l.map Prod.snd := by
  induction l with
  | nil => intro acc v h; left; exact h
  | cons p t ih =>
    intro acc v h
    rcases ih _ v h with h2 | h2
    · simp only [] at h2
      by_cases hp : p.1 == k
      · rw [if_pos hp] at h2
        right
        rw [List.map_cons]
        have : p.2 = v := by injection h2
        exact this ▸ List.mem_cons_self _ _
      · rw [if_neg hp] at h2
        left
        exact h2
    · right
      rw [List.map_cons]
      exact List.mem_cons_of_mem _ h2

theorem pyDictGet_mem {l : List (List Char × List Char)} {k v : List Char}
    (h : pyDictGet l k = some v) : v ∈ l.map Prod.snd := by
  rcases pyDictGet_mem_aux l k none v h with h2 | h2
  · cases h2
  · exact h2

/-- Every comment opener in the table is free of newlines and of the
letter C (so it can never start a spurious pattern match). -/
theorem comment_values_good : ∀ v ∈ COMMENT_SYNTAX.map Prod.snd,
    '\n' ∉ v ∧ ∀ c ∈ v, c ≠ 'C' := by decide

theorem block_values_no_nl : ∀ v ∈ BLOCK_COMMENT_END.map Prod.snd,
    '\n' ∉ v := by decide

theorem get_comment_style_props {sfx cp : List Char}
    (h : get_comment_style sfx = some cp) :
    '\n' ∉ cp ∧ ∀ c ∈ cp, c ≠ 'C' :=
  comment_values_good cp (pyDictGet_mem h)

theorem blockEndOf_no_nl (cp : List Char) : '\n' ∉ blockEndOf cp := by
  unfold blockEndOf
  rcases h : pyDictGet BLOCK_COMMENT_END cp with _ | v
  · simp
  · simpa using block_values_no_nl v (pyDictGet_mem h)

theorem natStr_no_nl (n : Nat) : '\n' ∉ natStr n := by
  intro h
  have h2 := isDigitCh_of_mem_natStr h
  simp only [isDigitCh, Bool.and_eq_true, decide_eq_true_eq] at h2
  have h3 : '\n'.toNat = 10 := by decide
  omega

theorem intStr_no_nl (i : Int) : '\n' ∉ intStr i := by
  unfold intStr
  split
  · intro h
    rcases List.mem_cons.1 h with h | h
    · exact absurd h (by decide)
    · exact natStr_no_nl _ h
  · exact natStr_no_nl _

theorem template_no_nl (s e : Int) : '\n' ∉ COPYRIGHT_TEMPLATE s e := by
  intro hm
  simp only [COPYRIGHT_TEMPLATE, List.mem_append, List.mem_cons] at hm
  rcases hm with h | h | h | h | h | h | h | h | h | h | h | h | h | h | h <;>
    first
      | exact intStr_no_nl s h
      | exact intStr_no_nl e h
      | revert h; decide

theorem format_no_nl {cp : List Char} (hcp : '\n' ∉ cp) (s e : Int) :
    '\n' ∉ format_copyright_line cp s e := by
  intro hmem
  rcases List.mem_append.1 hmem with h | h
  · exact hcp h
  · rcases List.mem_cons.1 h with h | h
    · exact absurd h (by decide)
    · rcases List.mem_append.1 h with h | h
      · exact template_no_nl s e h
      · exact blockEndOf_no_nl cp h

theorem searchCopyright_format {cp : List Char} (hcp : ∀ c ∈ cp, c ≠ 'C')
    (s e : Nat) (hs1 : 1000 ≤ s) (hs2 : s ≤ 9999)
    (he1 : 1000 ≤ e) (he2 : e ≤ 9999) :
    searchCopyright (format_copyright_line cp (s : Int) (e : Int)) = some (s, e) := by
  have hshape : format_copyright_line cp (s : Int) (e : Int) =
      cp ++ ' ' :: (litCopyright ++ ' ' :: (natStr s ++ '-' :: (natStr e ++ ' ' ::
        (litHewlett ++ ' ' :: (litPackard ++ ' ' :: (litEnterprise ++ ' ' ::
          (litDevelopment ++ ' ' :: (litLP ++ blockEndOf cp)))))))) := by
    simp [format_copyright_line, COPYRIGHT_TEMPLATE, intStr_ofNat, List.append_assoc]
  rw [hshape, searchCopyright_append_skip cp _ hcp,
    searchCopyright_cons_ne_C _ (by decide)]
  exact searchCopyright_of_matchAt
    (matchAt_header s e hs1 hs2 he1 he2 (blockEndOf cp))

theorem take4_le {l : List Char} {p : Nat × List Char} (h : take4 l = some p) :
    p.1 ≤ 9999 := by
  match l with
  | [] => simp [take4] at h
  | [_] => simp [take4] at h
  | [_, _] => simp [take4] at h
  | [_, _, _] => simp [take4] at h
  | a :: b :: c :: d :: r =>
    simp only [take4] at h
    split at h
    · rename_i hcond
      simp only [Bool.and_eq_true, isDigitCh, decide_eq_true_eq] at hcond
      obtain ⟨⟨⟨⟨ha1, ha2⟩, hb1, hb2⟩, hc1, hc2⟩, hd1, hd2⟩ := hcond
      have hv : parseVal [a, b, c, d] =
          10 * (10 * (10 * (a.toNat - 48) + (b.toNat - 48)) + (c.toNat - 48)) +
            (d.toNat - 48) := by
        simp [parseVal, List.foldl]
      injection h with h2
      subst h2
      simp only
      omega
    · cases h

theorem matchAt_bounds {l : List Char} {g : Nat × Nat} (h : matchAt l = some g) :
    g.1 ≤ 9999 ∧ g.2 ≤ 9999 := by
  unfold matchAt at h
  simp only [Option.bind_eq_some, Option.map_eq_some'] at h
  obtain ⟨l1, -, l2, -, p1, hp1, l3, -, p2, hp2, l4, -, l5, -, l6, -, l7, -, l8, -,
    l9, -, l10, -, l11, -, l12, -, l13, -, hg⟩ := h
  subst hg
  exact ⟨take4_le hp1, take4_le hp2⟩

theorem searchCopyright_bounds {l : List Char} {g : Nat × Nat}
    (h : searchCopyright l = some g) : g.1 ≤ 9999 ∧ g.2 ≤ 9999 := by
  induction l with
  | nil => simp [searchCopyright] at h
  | cons c t ih =>
    rw [searchCopyright] at h
    rcases hm : matchAt (c :: t) with _ | g2
    · rw [hm] at h
      exact ih h
    · rw [hm] at h
      injection h with h2
      subst h2
      exact matchAt_bounds hm

theorem reconcile_first_eq (content : List Char) :
    (if content = [] then [] else splitNl content).headD [] =
      firstLineOf content := by
  by_cases h : content = []
  · subst h; rfl
  · rw [if_neg h]; rfl

theorem reconcile_of_none {content cp : List Char} {y : Int}
    (h : searchCopyright (firstLineOf content) = none) :
    reconcile content cp y =
      (format_copyright_line cp y y ++ '\n' :: content, Status.added) := by
  simp only [reconcile, reconcile_first_eq, h]
  by_cases hc : content = []
  · subst hc; rw [if_pos rfl]
  · rw [if_neg hc]

theorem reconcile_of_ok {content cp : List Char} {y : Int} {s e : Nat}
    (h : searchCopyright (firstLineOf content) = some (s, e))
    (he : (e : Int) = y) : reconcile content cp y = (content, Status.ok) := by
  simp only [reconcile, reconcile_first_eq, h]
  simp [he]

theorem reconcile_of_upd {content cp : List Char} {y : Int} {s e : Nat}
    (h : searchCopyright (firstLineOf content) = some (s, e))
    (he : (e : Int) ≠ y) :
    reconcile content cp y =
      (joinNl (format_copyright_line cp (s : Int) y :: (splitNl content).tail),
       Status.updated) := by
  have hc : content ≠ [] := by
    intro hc
    subst hc
    rw [show firstLineOf [] = [] from rfl,
      show searchCopyright [] = none from rfl] at h
    cases h
  simp only [reconcile, reconcile_first_eq, h]
  rw [if_neg hc]
  simp [he]

/-- C1 (amended): reconcile is idempotent — applying it a second time with
the same target year reports ok and leaves the content unchanged — for
every content and table comment syntax, provided the target year lies
between 1000 and 9999 and a matched start year is at least 1000 (its four
digits carry no leading zero).  Outside those bounds the second pass can
prepend a second header, see reconcile_not_idempotent_unbounded. -/
theorem reconcile_idempotent (sfx cp content : List Char) (y : Int)
    (hcp : get_comment_style sfx = some cp)
    (hy1 : 1000 ≤ y) (hy2 : y ≤ 9999)
    (hsafe : startYearSafe content = true) :
    reconcile (reconcile content cp y).1 cp y =
      ((reconcile content cp y).1, Status.ok) := by
  obtain ⟨hnonl, hnoC⟩ := get_comment_style_props hcp
  have hyN : ((y.toNat : Nat) : Int) = y := by omega
  rcases hsearch : searchCopyright (firstLineOf content) with _ | ⟨s, e⟩
  · rw [reconcile_of_none hsearch]
    show reconcile (format_copyright_line cp y y ++ '\n' :: content) cp y = _
    have hfl : firstLineOf (format_copyright_line cp y y ++ '\n' :: content) =
        format_copyright_line cp y y := by
      unfold firstLineOf
      rw [splitNl_append_nl _ (format_no_nl hnonl y y)]
      rfl
    have hform : format_copyright_line cp y y =
        format_copyright_line cp ((y.toNat : Nat) : Int) ((y.toNat : Nat) : Int) := by
      rw [hyN]
    have hs2 : searchCopyright
        (firstLineOf (format_copyright_line cp y y ++ '\n' :: content)) =
        some (y.toNat, y.toNat) := by
      rw [hfl, hform]
      exact searchCopyright_format hnoC _ _ (by omega) (by omega) (by omega) (by omega)
    rw [reconcile_of_ok hs2 hyN]
  · have hs1000 : 1000 ≤ s := by
      unfold startYearSafe at hsafe
      rw [hsearch] at hsafe
      simpa using hsafe
    have hbounds := searchCopyright_bounds hsearch
    by_cases he : (e : Int) = y
    · rw [reconcile_of_ok hsearch he]
      show reconcile content cp y = _
      rw [reconcile_of_ok hsearch he]
    · rw [reconcile_of_upd hsearch he]
      show reconcile (joinNl (format_copyright_line cp (s : Int) y ::
        (splitNl content).tail)) cp y = _
      have htail : ∀ x ∈ format_copyright_line cp (s : Int) y ::
          (splitNl content).tail, '\n' ∉ x := by
        intro x hx
        rcases List.mem_cons.1 hx with h1 | h1
        · subst h1
          exact format_no_nl hnonl _ _
        · exact mem_splitNl_no_nl content x (List.mem_of_mem_tail h1)
      have hfl : firstLineOf (joinNl (format_copyright_line cp (s : Int) y ::
          (splitNl content).tail)) = format_copyright_line cp (s : Int) y := by
        unfold firstLineOf
        rw [splitNl_joinNl _ (List.cons_ne_nil _ _) htail]
        rfl
      have hform : format_copyright_line cp (s : Int) y =
          format_copyright_line cp (s : Int) ((y.toNat : Nat) : Int) := by
        rw [hyN]
      have hs2 : searchCopyright (firstLineOf (joinNl
          (format_copyright_line cp (s : Int) y :: (splitNl content).tail))) =
          some (s, y.toNat) := by
        rw [hfl, hform]
        exact searchCopyright_format hnoC s y.toNat hs1000 hbounds.1
          (by omega) (by omega)
      rw [reconcile_of_ok hs2 hyN]

/-- C1 as frozen is false: with target year 999 the added header does not
match the four digit pattern, so a second pass prepends another header
with status added, not ok; and with a four digit target year 2024 but a
matched start year 0999 the rewritten header carries the three digit 999,
so the second pass again prepends instead of reporting ok. -/
theorem reconcile_not_idempotent_unbounded :
    (reconcile (reconcile ("x".toList) ("#".toList) 999).1 ("#".toList) 999).2 =
      Status.added ∧
    (reconcile (reconcile ("x".toList) ("#".toList) 999).1 ("#".toList) 999).1 ≠
      (reconcile ("x".toList) ("#".toList) 999).1 ∧
    (reconcile (reconcile
        ("# Copyright 0999-2025 Hewlett Packard Enterprise Development LP".toList)
        ("#".toList) 2024).1 ("#".toList) 2024).2 = Status.added := by
  decide

/-- Witness for reconcile_idempotent at a concrete input. -/
theorem reconcile_idempotent_witness :
    reconcile (reconcile ("x".toList) ("#".toList) 2025).1 ("#".toList) 2025 =
      ((reconcile ("x".toList) ("#".toList) 2025).1, Status.ok) :=
  reconcile_idempotent (".py".toList) ("#".toList) ("x".toList) 2025
    (by decide) (by decide) (by decide) (by decide)

/-- C2: when the first line matches with years s and e and e differs from
the target year, reconcile reports updated and the new content splits into
the freshly formatted header carrying the original start year s with the
target year as end year, followed by exactly the original remaining lines
byte for byte; no constraint relates the target year and e, so this also
covers a target year smaller than e, and the start year is never
regressed. -/
theorem reconcile_updated_preserves_rest (sfx cp content : List Char) (y : Int)
    (s e : Nat) (hcp : get_comment_style sfx = some cp)
    (h : searchCopyright (firstLineOf content) = some (s, e))
    (hne : (e : Int) ≠ y) :
    (reconcile content cp y).2 = Status.updated ∧
    splitNl (reconcile content cp y).1 =
      format_copyright_line cp (s : Int) y :: (splitNl content).tail := by
  rw [reconcile_of_upd h hne]
  refine ⟨rfl, ?_⟩
  show splitNl (joinNl (format_copyright_line cp (s : Int) y ::
    (splitNl content).tail)) = _
  apply splitNl_joinNl _ (List.cons_ne_nil _ _)
  intro x hx
  rcases List.mem_cons.1 hx with h1 | h1
  · subst h1
    exact format_no_nl (get_comment_style_props hcp).1 _ _
  · exact mem_splitNl_no_nl content x (List.mem_of_mem_tail h1)

/-- Witness for reconcile_updated_preserves_rest: header 2021-2023 in a go
file, target year 2020 (earlier than the end year): updated to 2021-2020
with the second line untouched. -/
theorem reconcile_updated_witness :
    (reconcile ("// Copyright 2021-2023 Hewlett Packard Enterprise Development LP\npackage main".toList)
      ("//".toList) 2020).2 = Status.updated ∧
    splitNl (reconcile ("// Copyright 2021-2023 Hewlett Packard Enterprise Development LP\npackage main".toList)
      ("//".toList) 2020).1 =
      format_copyright_line ("//".toList) ((2021 : Nat) : Int) 2020 ::
        (splitNl ("// Copyright 2021-2023 Hewlett Packard Enterprise Development LP\npackage main".toList)).tail :=
  reconcile_updated_preserves_rest (".go".toList) ("//".toList)
    ("// Copyright 2021-2023 Hewlett Packard Enterprise Development LP\npackage main".toList)
    2020 2021 2023 (by decide) (by decide) (by decide)

/-- C3: when the first line does not match, reconcile prepends the freshly
formatted header (the target year as both start and end year) and a
newline separator before the unchanged content — for empty content this
yields the header plus a single trailing newline — with status added; and
concretely a py file holding print(1) with target year 2025 becomes the
hash header, a newline and print(1). -/
theorem reconcile_added_prepends (content cp : List Char) (y : Int)
    (h : searchCopyright (firstLineOf content) = none) :
    reconcile content cp y =
      (format_copyright_line cp y y ++ '\n' :: content, Status.added) ∧
    reconcile ("print(1)".toList) ("#".toList) 2025 =
      ("# Copyright 2025-2025 Hewlett Packard Enterprise Development LP\nprint(1)".toList,
       Status.added) :=
  ⟨reconcile_of_none h, by decide⟩

/-- Witness for reconcile_added_prepends: the empty content becomes the
header followed by a single trailing newline. -/
theorem reconcile_added_witness :
    reconcile ([] : List Char) ("#".toList) 2025 =
      (format_copyright_line ("#".toList) 2025 2025 ++ '\n' :: [], Status.added) :=
  (reconcile_added_prepends [] ("#".toList) 2025 (by decide)).1

/-- C8: a file whose lower-cased extension is absent from COMMENT_SYNTAX is
reported skipped before any read: the result is the same for every read
outcome (content, decode failure or denied access) and every write
outcome, and nothing is written. -/
theorem unknown_extension_skipped (sfx : List Char) (rd : ReadOutcome)
    (wr : WriteOutcome) (y : Int) (dry : Bool)
    (h : get_comment_style sfx = none) :
    check_and_fix_file sfx rd wr y dry = Except.ok ⟨Status.skipped, none⟩ := by
  unfold check_and_fix_file
  rw [h]

/-- Witness for unknown_extension_skipped on a xyz file. -/
theorem unknown_extension_skipped_witness :
    check_and_fix_file (".xyz".toList) (ReadOutcome.ok ("data".toList))
      WriteOutcome.accessDenied 2025 false = Except.ok ⟨Status.skipped, none⟩ :=
  unknown_extension_skipped (".xyz".toList) (ReadOutcome.ok ("data".toList))
    WriteOutcome.accessDenied 2025 false (by decide)

/-- Every comment opener of the table closes per the claim: the html
opener with the arrow closer, the slash-star opener with star-slash, and
the empty closer otherwise. -/
theorem blockEndOf_table : ∀ v ∈ COMMENT_SYNTAX.map Prod.snd,
    blockEndOf v = (if v = "<!--".toList then " -->".toList
      else if v = "/*".toList then " */".toList else []) := by decide

/-- C9: format_copyright_line is the opener, exactly one space, the
template text Copyright start-end Hewlett Packard Enterprise Development
LP, then for the two block comment openers the matching closer with its
single leading space and nothing for line comment styles; and the html
scenario whose header already carries the target year reports ok with the
content unchanged. -/
theorem format_line_structure (sfx cp : List Char) (s e : Int)
    (hcp : get_comment_style sfx = some cp) :
    format_copyright_line cp s e =
      cp ++ ' ' :: (COPYRIGHT_TEMPLATE s e ++
        (if cp = "<!--".toList then " -->".toList
         else if cp = "/*".toList then " */".toList else [])) ∧
    reconcile ("<!-- Copyright 2025-2025 Hewlett Packard Enterprise Development LP -->\n<html></html>".toList)
        ("<!--".toList) 2025 =
      ("<!-- Copyright 2025-2025 Hewlett Packard Enterprise Development LP -->\n<html></html>".toList,
       Status.ok) := by
  constructor
  · unfold format_copyright_line
    rw [blockEndOf_table cp (pyDictGet_mem hcp)]
  · decide

/-- Witness for format_line_structure with the html opener. -/
theorem format_line_structure_witness :
    format_copyright_line ("<!--".toList) 2025 2024 =
      "<!--".toList ++ ' ' :: (COPYRIGHT_TEMPLATE 2025 2024 ++
        (if "<!--".toList = "<!--".toList then " -->".toList
         else if "<!--".toList = "/*".toList then " */".toList else [])) :=
  (format_line_structure (".html".toList) ("<!--".toList) 2025 2024 (by decide)).1

/-- C4 (amended): the two caught read failures — decode errors and denied
read access — are file local: the file reports error, nothing is written,
and the loop continues with every remaining file processed exactly as it
would have been; a denied write, by contrast, escapes as an exception and
halts the scan, see write_error_halts_scan. -/
theorem read_errors_file_local (sfx cp : List Char) (wr : WriteOutcome) (y : Int)
    (dry : Bool) (fs : List (List Char × ReadOutcome × WriteOutcome))
    (hcp : get_comment_style sfx = some cp) :
    check_and_fix_file sfx ReadOutcome.decodeError wr y dry =
      Except.ok ⟨Status.error, none⟩ ∧
    check_and_fix_file sfx ReadOutcome.accessDenied wr y dry =
      Except.ok ⟨Status.error, none⟩ ∧
    processFiles ((sfx, ReadOutcome.decodeError, wr) :: fs) y dry =
      (processFiles fs y dry).map (fun rs => ⟨Status.error, none⟩ :: rs) ∧
    processFiles ((sfx, ReadOutcome.accessDenied, wr) :: fs) y dry =
      (processFiles fs y dry).map (fun rs => ⟨Status.error, none⟩ :: rs) := by
  have h1 : check_and_fix_file sfx ReadOutcome.decodeError wr y dry =
      Except.ok ⟨Status.error, none⟩ := by
    unfold check_and_fix_file
    rw [hcp]
  have h2 : check_and_fix_file sfx ReadOutcome.accessDenied wr y dry =
      Except.ok ⟨Status.error, none⟩ := by
    unfold check_and_fix_file
    rw [hcp]
  refine ⟨h1, h2, ?_, ?_⟩
  · simp only [processFiles]
    rw [h1]
    rcases hp : processFiles fs y dry with e | rs <;> simp [Except.map]
  · simp only [processFiles]
    rw [h2]
    rcases hp : processFiles fs y dry with e | rs <;> simp [Except.map]

/-- C4 as frozen is false for write failures: a file needing a fix whose
write is denied does not get the error status — the exception escapes
check_and_fix_file — and the per-file loop aborts, leaving the remaining
files unprocessed instead of continuing the scan. -/
theorem write_error_halts_scan :
    check_and_fix_file (".py".toList) (ReadOutcome.ok ("x".toList))
      WriteOutcome.accessDenied 2025 false =
      Except.error PyExc.writeAccessDenied ∧
    processFiles [(".py".toList, ReadOutcome.ok ("x".toList), WriteOutcome.accessDenied),
      (".go".toList, ReadOutcome.ok ("y".toList), WriteOutcome.ok)] 2025 false =
      Except.error PyExc.writeAccessDenied :=
  ⟨rfl, rfl⟩

/-- Witness for read_errors_file_local with one following file. -/
theorem read_errors_file_local_witness :
    check_and_fix_file (".py".toList) ReadOutcome.decodeError WriteOutcome.ok 2025 false =
      Except.ok ⟨Status.error, none⟩ ∧
    check_and_fix_file (".py".toList) ReadOutcome.accessDenied WriteOutcome.ok 2025 false =
      Except.ok ⟨Status.error, none⟩ ∧
    processFiles ((".py".toList, ReadOutcome.decodeError, WriteOutcome.ok) ::
        [(".go".toList, ReadOutcome.ok ("y".toList), WriteOutcome.ok)]) 2025 false =
      (processFiles [(".go".toList, ReadOutcome.ok ("y".toList), WriteOutcome.ok)]
        2025 false).map (fun rs => ⟨Status.error, none⟩ :: rs) ∧
    processFiles ((".py".toList, ReadOutcome.accessDenied, WriteOutcome.ok) ::
        [(".go".toList, ReadOutcome.ok ("y".toList), WriteOutcome.ok)]) 2025 false =
      (processFiles [(".go".toList, ReadOutcome.ok ("y".toList), WriteOutcome.ok)]
        2025 false).map (fun rs => ⟨Status.error, none⟩ :: rs) :=
  read_errors_file_local (".py".toList) ("#".toList) WriteOutcome.ok 2025 false
    [(".go".toList, ReadOutcome.ok ("y".toList), WriteOutcome.ok)] (by decide)

/-- C7: the directory pattern build with a trailing slash ignores
build/x.go, sub/build/y.go, and also a bare file named build at the root
(matched through the directory-name-in-parts rule). -/
theorem build_dir_pattern_matches :
    should_ignore ["build".toList, "x.go".toList] ["build/".toList] = true ∧
    should_ignore ["sub".toList, "build".toList, "y.go".toList] ["build/".toList] = true ∧
    should_ignore ["build".toList] ["build/".toList] = true := by
  decide

/-- C5 (amended): for a pattern that is no directory marker, does not open
with star-dot after stripping, and contains a slash or a star, a bracket
pattern is NOT decided solely by the base name: the code first consults
the glob of the full relative path and falls back to the base name class
match only when that glob fails, so the outcome is the disjunction of the
two. -/
theorem bracket_pattern_after_path_glob (parts : List (List Char))
    (pat : List Char)
    (h1 : (endsWithL pat litDirStarStar || endsWithL pat litSlash) = false)
    (h2 : litStarDot.isPrefixOf (rstripChar '/' pat) = false)
    (h3 : (!(rstripChar '/' pat).contains '/' &&
      !(rstripChar '/' pat).contains '*') = false)
    (h4 : (rstripChar '/' pat).contains '[' = true) :
    patternMatches parts pat =
      (globMatch (rstripChar '/' pat) (relStrOf parts) ||
       globMatch (rstripChar '/' pat) (parts.getLastD [])) := by
  simp only [patternMatches, h1, h2, h3, h4]
  cases hg : globMatch (rstripChar '/' pat) (relStrOf parts) <;> simp [hg]

/-- C5 as frozen is false: the bracket pattern with a slash is consulted
against the full relative path first; for this pattern and path the code
ignores the file although the base name class match (the rule the claim
says decides alone) fails, and the pattern satisfies every shape
hypothesis of the claim. -/
theorem bracket_pattern_not_base_only :
    should_ignore ["ab".toList, "x.py".toList] ["a[bc]/x.py".toList] = true ∧
    globMatch ("a[bc]/x.py".toList) ("x.py".toList) = false ∧
    (endsWithL ("a[bc]/x.py".toList) litDirStarStar ||
      endsWithL ("a[bc]/x.py".toList) litSlash) = false ∧
    litStarDot.isPrefixOf (rstripChar '/' ("a[bc]/x.py".toList)) = false ∧
    (rstripChar '/' ("a[bc]/x.py".toList)).contains '/' = true ∧
    (rstripChar '/' ("a[bc]/x.py".toList)).contains '[' = true := by
  decide

/-- Witness for bracket_pattern_after_path_glob at the same inputs. -/
theorem bracket_pattern_after_path_glob_witness :
    patternMatches ["ab".toList, "x.py".toList] ("a[bc]/x.py".toList) =
      (globMatch (rstripChar '/' ("a[bc]/x.py".toList))
        (relStrOf ["ab".toList, "x.py".toList]) ||
       globMatch (rstripChar '/' ("a[bc]/x.py".toList))
        ((["ab".toList, "x.py".toList] : List (List Char)).getLastD [])) :=
  bracket_pattern_after_path_glob ["ab".toList, "x.py".toList]
    ("a[bc]/x.py".toList) (by decide) (by decide) (by decide) (by decide)

theorem getLastD_mem {A : Type} (l : List A) (d : A) (h : l ≠ []) :
    l.getLastD d ∈ l := by
  induction l generalizing d with
  | nil => exact absurd rfl h
  | cons a t ih =>
    rw [List.getLastD_cons]
    cases t with
    | nil => simp [List.getLastD]
    | cons b u => exact List.mem_cons_of_mem a (ih a (List.cons_ne_nil b u))

/-- C6: with no patterns nothing is ignored, and a pattern that strips to
the empty string (the empty pattern or all slashes) never matches any
well-formed path (nonempty parts, each part nonempty and slash free). -/
theorem empty_patterns_match_nothing (parts : List (List Char)) (pat : List Char)
    (hne : parts ≠ []) (hseg : ∀ p ∈ parts, p ≠ [] ∧ '/' ∉ p)
    (hpat : rstripChar '/' pat = []) :
    should_ignore parts [] = false ∧
    patternMatches parts pat = false ∧
    should_ignore parts [pat] = false := by
  have hall : ∀ c ∈ pat, c = '/' := by
    intro c hc
    have h2 : pat.reverse.dropWhile (fun x => x == '/') = [] :=
      List.reverse_eq_nil_iff.mp (by simpa [rstripChar] using hpat)
    have h3 := List.dropWhile_eq_nil_iff.mp h2 c (List.mem_reverse.mpr hc)
    simpa using h3
  have hanynil : parts.any (fun p => p == ([] : List Char)) = false := by
    by_contra hx
    rw [Bool.not_eq_false] at hx
    obtain ⟨p, hp, hpe⟩ := List.any_eq_true.mp hx
    exact (hseg p hp).1 (by simpa using hpe)
  have hname : parts.getLastD [] ≠ [] :=
    fun hnil => (hseg _ (getLastD_mem parts [] hne)).1 hnil
  have hrel : ∃ c t z, relStrOf parts = c :: (t ++ z) ∧ c ≠ '/' := by
    cases parts with
    | nil => exact absurd rfl hne
    | cons p rest =>
      obtain ⟨hp_ne, hp_noslash⟩ := hseg p (List.mem_cons_self p rest)
      rcases hp : p with _ | ⟨c, t⟩
      · exact absurd hp hp_ne
      · have hc : c ≠ '/' := by
          intro hcs
          exact hp_noslash (by rw [hp, hcs]; exact List.mem_cons_self _ _)
        cases rest with
        | nil => exact ⟨c, t, [], by simp [relStrOf, joinSep, hp], hc⟩
        | cons q u =>
          exact ⟨c, t, '/' :: joinSep '/' (q :: u),
            by simp [relStrOf, joinSep, hp], hc⟩
  have hslashpref : (['/'] : List Char).isPrefixOf (relStrOf parts) = false := by
    obtain ⟨c, t, z, heq, hc⟩ := hrel
    rw [heq]
    simp only [List.isPrefixOf]
    simp [Ne.symm hc]
  have hmain : patternMatches parts pat = false := by
    rcases hp : pat with _ | ⟨c0, t0⟩
    · have g4 : rstripChar '/' ([] : List Char) = [] := by decide
      simp only [patternMatches, g4]
      rw [if_neg (by decide), if_neg (by decide), if_pos (by decide)]
      rw [hanynil]
      have hname2 : parts.getLast?.getD [] ≠ [] := by
        rw [← List.getLastD_eq_getLast?]
        exact hname
      simp [beq_eq_false_iff_ne.mpr hname2]
    · have hlast : endsWithL pat litSlash = true := by
        have hrevne : pat.reverse ≠ [] := by simp [hp]
        rcases hr : pat.reverse with _ | ⟨r, rs⟩
        · exact absurd hr hrevne
        · have hrmem : r ∈ pat := List.mem_reverse.mp (hr ▸ List.mem_cons_self r rs)
          have hrs : r = '/' := hall r hrmem
          unfold endsWithL litSlash
          rw [hr]
          simp [List.isPrefixOf, hrs]
      rw [← hp]
      have hdir : rstripChar '/' (rstripChar '*' (rstripChar '/' pat)) = [] := by
        rw [hpat]
        rfl
      simp only [patternMatches, hlast, Bool.or_true, if_true, hdir]
      rw [hanynil]
      simpa using hslashpref
  refine ⟨rfl, hmain, ?_⟩
  simp [should_ignore, hmain]

/-- Witness for empty_patterns_match_nothing: a single-segment path with
the slash pattern. -/
theorem empty_patterns_match_nothing_witness :
    should_ignore ["a".toList] [] = false ∧
    patternMatches ["a".toList] ("/".toList) = false ∧
    should_ignore ["a".toList] ["/".toList] = false :=
  empty_patterns_match_nothing ["a".toList] ("/".toList)
    (by decide) (by decide) (by decide)

/-- C10 (amended): find_files applies the hidden-segment exclusion to the
full path, root segments included (file_path.parts).  When the root itself
carries no hidden segment the result contains exactly the given files
whose relative parts are dot free, not ignored, and of known extension, in
sorted path order; but for a root with a hidden segment every file is
excluded, see hidden_root_excludes_all. -/
theorem find_files_spec (root : List (List Char)) (pats : List (List Char))
    (files : List (List (List Char))) (f : List (List Char))
    (hroot : root.any startsWithDot = false) :
    (f ∈ find_files root pats files ↔
      (f ∈ files ∧ f.any startsWithDot = false ∧ should_ignore f pats = false ∧
        (get_comment_style (suffixOf (f.getLastD []))).isSome = true)) ∧
    (find_files root pats files).Sorted pathLe := by
  constructor
  · rw [find_files, List.mem_insertionSort, List.mem_filter]
    unfold fileOk
    rw [List.any_append, hroot]
    simp [Bool.and_eq_true, Bool.not_eq_true', and_assoc]
  · exact List.sorted_insertionSort pathLe _

/-- C10 as frozen is false: for the root with the hidden segment dot-r the
file a.py is excluded although no segment of its root-relative path starts
with a dot, its extension is known, and no ignore pattern matches — the
hidden check walks the full path including the root. -/
theorem hidden_root_excludes_all :
    find_files [".r".toList] [] [["a.py".toList]] = [] ∧
    (["a.py".toList] : List (List Char)).any startsWithDot = false ∧
    should_ignore ["a.py".toList] [] = false ∧
    (get_comment_style (suffixOf ((["a.py".toList] : List (List Char)).getLastD []))).isSome
      = true := by
  decide

/-- Witness for find_files_spec with a dot-free root. -/
theorem find_files_spec_witness :
    (["r".toList] : List (List Char)).any startsWithDot = false ∧
    ["a.py".toList] ∈ find_files ["r".toList] [] [["b.js".toList], ["a.py".toList]] :=
  ⟨by decide,
    (find_files_spec ["r".toList] [] [["b.js".toList], ["a.py".toList]]
      ["a.py".toList] (by decide)).1.mpr (by decide)⟩

end CopyrightCheck
